import Mathlib

/-!
Verification of the potatodb in-memory tabular store (src/src/lib.rs).

The Rust code is shallowly embedded: `HashMap` becomes an association list
with unique keys, `Vec` becomes `List`, `u64`/`usize` become `Nat`
(no arithmetic in the source can overflow 64 bits on the inputs considered),
and fallible operations return an explicit result type.  Rust panics
(out-of-bounds indexing, `unwrap` on `None`) are modelled by a dedicated
`Res.panicked` outcome so that crash behaviour is observable.
-/

/-- Outcome of an operation: success, a string-carrying error
(as in the Rust `Result<_, String>`), or a panic. -/
inductive Res (α : Type) where
  | ok : α → Res α
  | err : String → Res α
  | panicked : Res α
deriving DecidableEq, Repr

/-- Association-list model of `HashMap` lookup (`get`). -/
def lookupM {α β : Type} [DecidableEq α] : List (α × β) → α → Option β
  | [], _ => none
  | (k, v) :: rest, key => if k = key then some v else lookupM rest key

/-- Association-list model of `HashMap::contains_key`. -/
def containsM {α β : Type} [DecidableEq α] (l : List (α × β)) (k : α) : Bool :=
  (lookupM l k).isSome

/-- Association-list model of `HashMap::insert`: replace the binding in
place when the key is present, otherwise append a new binding. -/
def insertM {α β : Type} [DecidableEq α] : List (α × β) → α → β → List (α × β)
  | [], k, v => [(k, v)]
  | (k0, v0) :: rest, k, v =>
    if k0 = k then (k0, v) :: rest else (k0, v0) :: insertM rest k v

/-- Association-list model of `HashMap::remove`: returns the removed value
together with the remaining bindings, or `none` if the key is absent. -/
def removeGetM {α β : Type} [DecidableEq α] : List (α × β) → α → Option (β × List (α × β))
  | [], _ => none
  | (k0, v0) :: rest, k =>
    if k0 = k then some (v0, rest)
    else
      match removeGetM rest k with
      | none => none
      | some (v, rest2) => some (v, (k0, v0) :: rest2)

/-- `Record` from lib.rs: an id and a column-name → string-value map. -/
structure Record where
  id : Nat
  data : List (String × String)
deriving DecidableEq, Repr

/-- `Table` from lib.rs: name, record sequence, and id → position index. -/
structure Table where
  name : String
  records : List Record
  index : List (Nat × Nat)
deriving DecidableEq, Repr

/-- `Database` from lib.rs: table name → table map. -/
structure Database where
  tables : List (String × Table)
deriving DecidableEq, Repr

/-- `Condition` AST from lib.rs. -/
inductive Condition where
  | Equals (col val : String)
  | NotEquals (col val : String)
  | GreaterThan (col val : String)
  | LessThan (col val : String)
  | And (l r : Condition)
  | Or (l r : Condition)
deriving DecidableEq, Repr

/-- `SqlStatement` AST from lib.rs. -/
inductive SqlStatement where
  | Select (table : String) (columns : List String) (condition : Option Condition)
  | Insert (table : String) (columns : List String) (values : List String)
  | Update (table : String) (column : String) (value : String) (condition : Option Condition)
  | Delete (table : String) (condition : Option Condition)
deriving DecidableEq, Repr

/-- Lexicographic comparison of character sequences by codepoint; for
valid UTF-8 this coincides with the byte-wise ordering Rust uses on
`String`. -/
def ltChars : List Char → List Char → Bool
  | [], [] => false
  | [], _ :: _ => true
  | _ :: _, [] => false
  | a :: as, b :: bs => if a < b then true else if b < a then false else ltChars as bs

/-- Rust `String` ordering (`<`): byte/codepoint-wise lexicographic. -/
def ltS (a b : String) : Bool :=
  ltChars a.data b.data

/-- Model of `str::to_uppercase` restricted to the characters appearing
in statements (keywords are ASCII; non-letters are unchanged). -/
def upperA (s : String) : String :=
  String.mk (s.data.map Char.toUpper)

/-- Body of `evaluate_condition` for a present condition; Rust string
comparison is byte-lexicographic, modelled by `ltS`. -/
def evalCond (r : Record) : Condition → Bool
  | Condition.Equals col val =>
    match lookupM r.data col with
    | none => false
    | some v => v = val
  | Condition.NotEquals col val =>
    match lookupM r.data col with
    | none => true
    | some v => v ≠ val
  | Condition.GreaterThan col val =>
    match lookupM r.data col with
    | none => false
    | some v => ltS val v
  | Condition.LessThan col val =>
    match lookupM r.data col with
    | none => false
    | some v => ltS v val
  | Condition.And l r2 => evalCond r l && evalCond r r2
  | Condition.Or l r2 => evalCond r l || evalCond r r2

/-- `evaluate_condition` from lib.rs: an absent condition matches every
record. -/
def evaluate_condition (r : Record) : Option Condition → Bool
  | none => true
  | some c => evalCond r c

/-- Splitter behind `split_whitespace`: maximal runs of non-whitespace
characters, in order, with empty fragments skipped. -/
def splitWs : List Char → List Char → List String
  | [], cur => if cur.isEmpty then [] else [String.mk cur.reverse]
  | c :: cs, cur =>
    if c.isWhitespace then
      if cur.isEmpty then splitWs cs [] else String.mk cur.reverse :: splitWs cs []
    else splitWs cs (c :: cur)

/-- Tokenization in `parse_sql`: `sql.split_whitespace().collect()`. -/
def tokenize (sql : String) : List String :=
  splitWs sql.data []

/-- The character class trimmed from INSERT list tokens. -/
def isPunct (c : Char) : Bool :=
  c = '(' || c = ',' || c = ')'

/-- `trim_matches(|c| c == '(' || c == ',' || c == ')')`: strip those
characters from both ends of a token (interior occurrences stay). -/
def trimPunct (s : String) : String :=
  String.mk (((s.data.dropWhile isPunct).reverse.dropWhile isPunct).reverse)

/-- `tokens.iter().position(|r| r.to_uppercase() == kw)`. -/
def findKw (tokens : List String) (kw : String) : Option Nat :=
  tokens.findIdx? (fun t => upperA t = kw)

/-- Rust slice `l[a..b]`: `none` models the panic when `a > b` or
`b > l.length`. -/
def sliceR {α : Type} (l : List α) (a b : Nat) : Option (List α) :=
  if a ≤ b ∧ b ≤ l.length then some ((l.drop a).take (b - a)) else none

/-- Operator table of the WHERE sub-parser. -/
def parseOp (column op value : String) : Option Condition :=
  match op with
  | "=" => some (Condition.Equals column value)
  | "!=" => some (Condition.NotEquals column value)
  | ">" => some (Condition.GreaterThan column value)
  | "<" => some (Condition.LessThan column value)
  | _ => none

/-- `conditions.into_iter().reduce(|acc, item| And(acc, item))`. -/
def reduceAnd : List Condition → Option Condition
  | [] => none
  | c :: cs => some (cs.foldl (fun acc item => Condition.And acc item) c)

/-- Loop of `parse_where_clause` over the tokens after the leading
`WHERE`, carrying the accumulated conditions.  The `OR` arm inlines the
recursive `parse_where_clause` call of the source (which re-checks for a
leading `WHERE` and yields `None` otherwise); `unwrap` of that `None` is
the `Res.panicked` outcome.  Fuel only bounds the recursion depth; the
entry point supplies more fuel than tokens, so fuel never runs out. -/
def goW : Nat → List String → List Condition → Res (Option Condition)
  | 0, _, _ => Res.panicked
  | Nat.succ fuel, rest, conds =>
    match rest with
    | c :: op :: v :: rest2 =>
      match parseOp c op v with
      | none => Res.ok none
      | some cond =>
        let conds2 := conds ++ [cond]
        match rest2 with
        | [] => Res.ok (reduceAnd conds2)
        | k :: rest3 =>
          if upperA k = "AND" then goW fuel rest3 conds2
          else if upperA k = "OR" then
            match conds2.getLast? with
            | none => Res.panicked
            | some left =>
              match
                (match rest3 with
                 | [] => Res.ok none
                 | w :: r =>
                   if upperA w = "WHERE" then goW fuel r [] else Res.ok none) with
              | Res.ok (some right) =>
                Res.ok (reduceAnd (conds2.dropLast ++ [Condition.Or left right]))
              | Res.ok none => Res.panicked
              | Res.err m => Res.err m
              | Res.panicked => Res.panicked
          else Res.ok (reduceAnd conds2)
    | _ => Res.ok (reduceAnd conds)

/-- `parse_where_clause` from lib.rs: yields `none` unless the token
slice starts with `WHERE` (case-insensitively). -/
def parse_where_clause (tokens : List String) : Res (Option Condition) :=
  match tokens with
  | [] => Res.ok none
  | t :: rest =>
    if upperA t = "WHERE" then goW (tokens.length + 1) rest [] else Res.ok none

/-- `parse_sql` from lib.rs.  Every positional token access of the source
(`tokens[0]`, `tokens[from_index + 1]`, `tokens[set_index + 1]`,
`tokens[set_index + 3]`, slice bounds) is modelled with an optional access
whose failure is `Res.panicked`, matching the Rust out-of-bounds panic. -/
def parse_sql (sql : String) : Res SqlStatement :=
  let tokens := tokenize sql
  match tokens.get? 0 with
  | none => Res.panicked
  | some t0 =>
    match upperA t0 with
    | "SELECT" =>
      match findKw tokens "FROM" with
      | none => Res.err "Invalid SELECT statement"
      | some fi =>
        match tokens.get? (fi + 1) with
        | none => Res.panicked
        | some table =>
          match sliceR tokens 1 fi with
          | none => Res.panicked
          | some cols =>
            match parse_where_clause (tokens.drop (fi + 2)) with
            | Res.ok cond => Res.ok (SqlStatement.Select table cols cond)
            | Res.err m => Res.err m
            | Res.panicked => Res.panicked
    | "INSERT" =>
      match findKw tokens "INTO" with
      | none => Res.err "Invalid INSERT statement"
      | some ii =>
        match findKw tokens "VALUES" with
        | none => Res.err "Invalid INSERT statement"
        | some vi =>
          match tokens.get? (ii + 1) with
          | none => Res.panicked
          | some table =>
            match sliceR tokens (ii + 2) vi with
            | none => Res.panicked
            | some colToks =>
              Res.ok (SqlStatement.Insert table (colToks.map trimPunct)
                ((tokens.drop (vi + 1)).map trimPunct))
    | "UPDATE" =>
      match findKw tokens "SET" with
      | none => Res.err "Invalid UPDATE statement"
      | some si =>
        match tokens.get? 1 with
        | none => Res.panicked
        | some table =>
          match tokens.get? (si + 1) with
          | none => Res.panicked
          | some column =>
            match tokens.get? (si + 3) with
            | none => Res.panicked
            | some value =>
              match parse_where_clause (tokens.drop (si + 4)) with
              | Res.ok cond => Res.ok (SqlStatement.Update table column value cond)
              | Res.err m => Res.err m
              | Res.panicked => Res.panicked
    | "DELETE" =>
      match findKw tokens "FROM" with
      | none => Res.err "Invalid DELETE statement"
      | some fi =>
        match tokens.get? (fi + 1) with
        | none => Res.panicked
        | some table =>
          match parse_where_clause (tokens.drop (fi + 2)) with
          | Res.ok cond => Res.ok (SqlStatement.Delete table cond)
          | Res.err m => Res.err m
          | Res.panicked => Res.panicked
    | _ => Res.err "Unsupported SQL statement"

/-- Index compaction step of `delete`: positions after the removed
position `p` move down by one (`if *idx > index { *idx -= 1 }`). -/
def shiftIndex (idx p : Nat) : Nat :=
  if p < idx then idx - 1 else idx

/-- The per-entry form of the compaction step applied to the whole index. -/
def shiftEntry (p : Nat) (kv : Nat × Nat) : Nat × Nat :=
  (kv.1, shiftIndex kv.2 p)

/-- `Database::new`. -/
def Database.new : Database :=
  ⟨[]⟩

/-- `Database::create_table`.  Mutating operations return the outcome
together with the post-state; error outcomes leave the state untouched,
exactly as the corresponding Rust branches do. -/
def Database.create_table (db : Database) (name : String) : Res Unit × Database :=
  if containsM db.tables name then
    (Res.err ("Table " ++ name ++ " already exists"), db)
  else
    (Res.ok (), ⟨insertM db.tables name ⟨name, [], []⟩⟩)

/-- `Database::insert` (programmatic): fails if the table is missing or
the id is already indexed; otherwise appends the record and indexes it at
the previous length. -/
def Database.insert (db : Database) (table_name : String) (id : Nat)
    (data : List (String × String)) : Res Unit × Database :=
  match lookupM db.tables table_name with
  | none => (Res.err ("Table " ++ table_name ++ " not found"), db)
  | some table =>
    if containsM table.index id then
      (Res.err ("Record with given id already exists in table " ++ table_name), db)
    else
      let idx := table.records.length
      let table2 : Table :=
        { table with records := table.records ++ [⟨id, data⟩],
                     index := insertM table.index id idx }
      (Res.ok (), ⟨insertM db.tables table_name table2⟩)

/-- `Database::get`: O(1) point lookup through the index; the record
access `table.records[index]` is positional, so a position out of range
would panic. -/
def Database.get (db : Database) (table_name : String) (id : Nat) :
    Res (Option Record) :=
  match lookupM db.tables table_name with
  | none => Res.err ("Table " ++ table_name ++ " not found")
  | some table =>
    match lookupM table.index id with
    | none => Res.ok none
    | some i =>
      match table.records.get? i with
      | none => Res.panicked
      | some r => Res.ok (some r)

/-- `Database::update` (programmatic): replaces the full data map of the
indexed record wholesale. -/
def Database.update (db : Database) (table_name : String) (id : Nat)
    (data : List (String × String)) : Res Unit × Database :=
  match lookupM db.tables table_name with
  | none => (Res.err ("Table " ++ table_name ++ " not found"), db)
  | some table =>
    match lookupM table.index id with
    | none => (Res.err ("Record with given id not found in table " ++ table_name), db)
    | some i =>
      match table.records.get? i with
      | none => (Res.panicked, db)
      | some r =>
        let table2 : Table :=
          { table with records := table.records.set i { r with data := data } }
        (Res.ok (), ⟨insertM db.tables table_name table2⟩)

/-- `Database::delete`: removes the index entry, removes the record at
its position, and decrements every remaining indexed position greater
than the removed one. -/
def Database.delete (db : Database) (table_name : String) (id : Nat) :
    Res Unit × Database :=
  match lookupM db.tables table_name with
  | none => (Res.err ("Table " ++ table_name ++ " not found"), db)
  | some table =>
    match removeGetM table.index id with
    | none => (Res.err ("Record with given id not found in table " ++ table_name), db)
    | some (p, index2) =>
      if p < table.records.length then
        let table2 : Table :=
          { table with records := table.records.eraseIdx p,
                       index := index2.map (shiftEntry p) }
        (Res.ok (), ⟨insertM db.tables table_name table2⟩)
      else (Res.panicked, db)

/-- `execute_select`: filter by the condition, then either return full
records (first column token `*`) or retain only the requested columns;
`columns[0]` on an empty column list is a positional access that panics. -/
def Database.execute_select (db : Database) (table : String)
    (columns : List String) (condition : Option Condition) : Res (List Record) :=
  match lookupM db.tables table with
  | none => Res.err "Table not found"
  | some t =>
    let records := t.records.filter (fun r => evaluate_condition r condition)
    match columns.get? 0 with
    | none => Res.panicked
    | some c0 =>
      if c0 = "*" then Res.ok records
      else
        Res.ok (records.map (fun r =>
          { r with data := r.data.filter (fun kv => columns.contains kv.1) }))

/-- The `for (column, value) in columns.iter().zip(values.iter())` loop
of `execute_insert`: pairwise zip (extras beyond the shorter list are
dropped by `zip`), inserted left to right. -/
def buildData (columns values : List String) : List (String × String) :=
  (columns.zip values).foldl (fun acc cv => insertM acc cv.1 cv.2) []

/-- `execute_insert`: the new id is `records.len() + 1`, the data map is
the zip of the column and value lists, and the index entry for the new id
is written unconditionally (`HashMap::insert` overwrites). -/
def Database.execute_insert (db : Database) (table : String)
    (columns values : List String) : Res (List Record) × Database :=
  match lookupM db.tables table with
  | none => (Res.err "Table not found", db)
  | some t =>
    let id := t.records.length + 1
    let data := buildData columns values
    let record : Record := ⟨id, data⟩
    let records2 := t.records ++ [record]
    let t2 : Table :=
      { t with records := records2, index := insertM t.index id (records2.length - 1) }
    (Res.ok [record], ⟨insertM db.tables table t2⟩)

/-- Deletion loop of `execute_delete` over the collected ids: ids no
longer indexed are skipped, each removal compacts the index exactly as
`Database.delete` does, and removed records accumulate in match order. -/
def deleteLoop : List Nat → Table → List Record → Res (List Record × Table)
  | [], table, acc => Res.ok (acc, table)
  | id :: rest, table, acc =>
    match removeGetM table.index id with
    | none => deleteLoop rest table acc
    | some (p, index2) =>
      match table.records.get? p with
      | none => Res.panicked
      | some r =>
        let table2 : Table :=
          { table with records := table.records.eraseIdx p,
                       index := index2.map (shiftEntry p) }
        deleteLoop rest table2 (acc ++ [r])

/-- `execute_delete`: first collect the ids of the condition-matching
records, then delete them one by one. -/
def Database.execute_delete (db : Database) (table : String)
    (condition : Option Condition) : Res (List Record) × Database :=
  match lookupM db.tables table with
  | none => (Res.err "Table not found", db)
  | some t =>
    let ids := (t.records.filter (fun r => evaluate_condition r condition)).map Record.id
    match deleteLoop ids t [] with
    | Res.ok (deleted, t2) => (Res.ok deleted, ⟨insertM db.tables table t2⟩)
    | Res.err m => (Res.err m, db)
    | Res.panicked => (Res.panicked, db)

/-- Update loop of `execute_update` over the collected ids: a record
whose data lacks the named column is skipped (`get_mut` misses);
otherwise exactly that column is overwritten and the updated record is
accumulated. -/
def updateLoop (column value : String) :
    List Nat → Table → List Record → Res (List Record × Table)
  | [], table, acc => Res.ok (acc, table)
  | id :: rest, table, acc =>
    match lookupM table.index id with
    | none => updateLoop column value rest table acc
    | some i =>
      match table.records.get? i with
      | none => Res.panicked
      | some r =>
        if containsM r.data column then
          let r2 : Record := { r with data := insertM r.data column value }
          let table2 : Table := { table with records := table.records.set i r2 }
          updateLoop column value rest table2 (acc ++ [r2])
        else updateLoop column value rest table acc

/-- `execute_update`: first collect the ids of the condition-matching
records, then update them one by one. -/
def Database.execute_update (db : Database) (table : String)
    (column value : String) (condition : Option Condition) :
    Res (List Record) × Database :=
  match lookupM db.tables table with
  | none => (Res.err "Table not found", db)
  | some t =>
    let ids := (t.records.filter (fun r => evaluate_condition r condition)).map Record.id
    match updateLoop column value ids t [] with
    | Res.ok (updated, t2) => (Res.ok updated, ⟨insertM db.tables table t2⟩)
    | Res.err m => (Res.err m, db)
    | Res.panicked => (Res.panicked, db)

/-- `execute_sql`: parse, then dispatch to the per-statement executor. -/
def Database.execute_sql (db : Database) (sql : String) :
    Res (List Record) × Database :=
  match parse_sql sql with
  | Res.err m => (Res.err m, db)
  | Res.panicked => (Res.panicked, db)
  | Res.ok stmt =>
    match stmt with
    | SqlStatement.Select t cols cond => (db.execute_select t cols cond, db)
    | SqlStatement.Insert t cols vals => db.execute_insert t cols vals
    | SqlStatement.Update t col v cond => db.execute_update t col v cond
    | SqlStatement.Delete t cond => db.execute_delete t cond

/-- The table/index invariant of the spec, as a predicate: index keys are
unique (a `HashMap` property), and an id maps to position `p` exactly
when the record stored at `p` carries that id.  The single equivalence
packages all four spec clauses: indexed positions are valid and carry the
right id (no stale entries), every stored record is indexed, and every
position below `records.length` is hit (density). -/
def TableWF (t : Table) : Prop :=
  (t.index.map Prod.fst).Nodup ∧
  ∀ id p, (lookupM t.index id = some p ↔ ∃ r, t.records.get? p = some r ∧ r.id = id)

/-- A database is well-formed when every stored table is. -/
def DatabaseWF (db : Database) : Prop :=
  ∀ name tab, lookupM db.tables name = some tab → TableWF tab

/-- Executable form of the spec invariant, clause by clause: every index
entry points at a record with that id; every record id is an index key;
positions are dense in `0..records.length`. -/
def tableInv (t : Table) : Bool :=
  (t.index.all fun kv =>
    match t.records.get? kv.2 with
    | some r => r.id == kv.1
    | none => false) &&
  (t.records.all fun r => containsM t.index r.id) &&
  ((List.range t.records.length).all fun p => t.index.any fun kv => kv.2 == p)

/-- Executable form of `TableWF`. -/
def tableWFb (t : Table) : Bool :=
  decide ((t.index.map Prod.fst).Nodup) &&
  (t.index.all fun kv =>
    match t.records.get? kv.2 with
    | some r => r.id == kv.1
    | none => false) &&
  ((List.range t.records.length).all fun p =>
    match t.records.get? p with
    | some r => lookupM t.index r.id == some p
    | none => false)

/-- Executable form of `DatabaseWF`. -/
def dbWFb (db : Database) : Bool :=
  db.tables.all fun nt => tableWFb nt.2

theorem lookupM_some_mem {α β : Type} [DecidableEq α] {l : List (α × β)} {k : α} {v : β}
    (h : lookupM l k = some v) : (k, v) ∈ l := by
  induction l with
  | nil => simp [lookupM] at h
  | cons kv rest ih =>
    obtain ⟨k0, v0⟩ := kv
    simp only [lookupM] at h
    by_cases hk : k0 = k
    · rw [if_pos hk] at h
      have hv := Option.some.inj h
      subst hv
      subst hk
      exact List.mem_cons_self _ _
    · rw [if_neg hk] at h
      exact List.mem_cons_of_mem _ (ih h)

theorem lookupM_of_nodup_mem {α β : Type} [DecidableEq α] {l : List (α × β)} {k : α} {v : β}
    (hnd : (l.map Prod.fst).Nodup) (h : (k, v) ∈ l) : lookupM l k = some v := by
  induction l with
  | nil => cases h
  | cons kv rest ih =>
    obtain ⟨k0, v0⟩ := kv
    simp only [List.map_cons, List.nodup_cons] at hnd
    simp only [lookupM]
    rcases List.mem_cons.mp h with h1 | h2
    · cases h1
      simp
    · have hne : k0 ≠ k := by
        intro he
        subst he
        exact hnd.1 (List.mem_map_of_mem Prod.fst h2)
      rw [if_neg hne]
      exact ih hnd.2 h2

theorem lookupM_insertM_self {α β : Type} [DecidableEq α] (l : List (α × β)) (k : α) (v : β) :
    lookupM (insertM l k v) k = some v := by
  induction l with
  | nil => simp [insertM, lookupM]
  | cons kv rest ih =>
    obtain ⟨k0, v0⟩ := kv
    by_cases hk : k0 = k
    · simp [insertM, hk, lookupM]
    · simp [insertM, hk, lookupM, ih]

theorem lookupM_insertM_ne {α β : Type} [DecidableEq α] (l : List (α × β)) (k : α) (v : β)
    (k2 : α) (h : k2 ≠ k) : lookupM (insertM l k v) k2 = lookupM l k2 := by
  induction l with
  | nil => simp [insertM, lookupM, Ne.symm h]
  | cons kv rest ih =>
    obtain ⟨k0, v0⟩ := kv
    by_cases hk : k0 = k
    · subst hk
      simp [insertM, lookupM, Ne.symm h]
    · simp [insertM, hk, lookupM, ih]

theorem lookupM_isSome_of_mem_keys {α β : Type} [DecidableEq α] {l : List (α × β)} {k : α}
    (h : k ∈ l.map Prod.fst) : (lookupM l k).isSome := by
  induction l with
  | nil => simp at h
  | cons kv rest ih =>
    obtain ⟨k0, v0⟩ := kv
    by_cases hk : k0 = k
    · simp [lookupM, hk]
    · simp only [List.map_cons, List.mem_cons] at h
      rcases h with h1 | h2
    
      · exact absurd h1.symm hk
      · simp [lookupM, hk]
        exact ih h2

theorem not_mem_keys_of_not_contains {α β : Type} [DecidableEq α] {l : List (α × β)} {k : α}
    (h : containsM l k = false) : k ∉ l.map Prod.fst := by
  intro hm
  have := lookupM_isSome_of_mem_keys hm
  rw [containsM] at h
  rw [h] at this
  cases this

theorem insertM_eq_append_of_not_contains {α β : Type} [DecidableEq α]
    {l : List (α × β)} {k : α} (v : β) (h : containsM l k = false) :
    insertM l k v = l ++ [(k, v)] := by
  induction l with
  | nil => simp [insertM]
  | cons kv rest ih =>
    obtain ⟨k0, v0⟩ := kv
    by_cases hk : k0 = k
    · exfalso
      simp [containsM, lookupM, hk] at h
    · simp only [containsM, lookupM, if_neg hk] at h
      simp [insertM, hk, ih h]

theorem lookupM_map_snd {α β γ : Type} [DecidableEq α] (l : List (α × β)) (f : β → γ)
    (k : α) : lookupM (l.map fun kv => (kv.1, f kv.2)) k = (lookupM l k).map f := by
  induction l with
  | nil => simp [lookupM]
  | cons kv rest ih =>
    obtain ⟨k0, v0⟩ := kv
    by_cases hk : k0 = k
    · simp [lookupM, hk]
    · simp [lookupM, hk, ih]

theorem keys_map_snd {α β γ : Type} (l : List (α × β)) (f : β → γ) :
    (l.map fun kv => (kv.1, f kv.2)).map Prod.fst = l.map Prod.fst := by
  induction l with
  | nil => rfl
  | cons kv rest ih => simp [ih]

theorem lookupM_map_shiftEntry (l : List (Nat × Nat)) (p k : Nat) :
    lookupM (l.map (shiftEntry p)) k = (lookupM l k).map (fun v => shiftIndex v p) :=
  lookupM_map_snd l (fun v => shiftIndex v p) k

theorem keys_map_shiftEntry (l : List (Nat × Nat)) (p : Nat) :
    (l.map (shiftEntry p)).map Prod.fst = l.map Prod.fst :=
  keys_map_snd l (fun v => shiftIndex v p)

theorem removeGetM_some_lookup {α β : Type} [DecidableEq α] {l : List (α × β)} {k : α} :
    ∀ {v : β} {l2 : List (α × β)}, removeGetM l k = some (v, l2) → lookupM l k = some v := by
  induction l with
  | nil => intro v l2 h; simp [removeGetM] at h
  | cons kv rest ih =>
    intro v l2 h
    obtain ⟨k0, v0⟩ := kv
    by_cases hk : k0 = k
    · simp [removeGetM, hk] at h
      simp [lookupM, hk, h.1]
    · simp only [removeGetM, if_neg hk] at h
      match hrec : removeGetM rest k with
      | none => rw [hrec] at h; cases h
      | some (v2, rest2) =>
        rw [hrec] at h
        simp at h
        obtain ⟨hv, -⟩ := h
        simp [lookupM, hk]
        exact hv ▸ ih hrec

theorem removeGetM_sublist {α β : Type} [DecidableEq α] {l : List (α × β)} {k : α} :
    ∀ {v : β} {l2 : List (α × β)}, removeGetM l k = some (v, l2) → l2.Sublist l := by
  induction l with
  | nil => intro v l2 h; simp [removeGetM] at h
  | cons kv rest ih =>
    intro v l2 h
    obtain ⟨k0, v0⟩ := kv
    by_cases hk : k0 = k
    · simp [removeGetM, hk] at h
      rw [← h.2]
      exact List.Sublist.cons _ (List.Sublist.refl _)
    · simp only [removeGetM, if_neg hk] at h
      match hrec : removeGetM rest k with
      | none => rw [hrec] at h; cases h
      | some (v2, rest2) =>
        rw [hrec] at h
        simp at h
        obtain ⟨-, hl⟩ := h
        rw [← hl]
        exact List.Sublist.cons₂ _ (ih hrec)

theorem removeGetM_lookup_ne {α β : Type} [DecidableEq α] {l : List (α × β)} {k k2 : α}
    (hne : k2 ≠ k) :
    ∀ {v : β} {l2 : List (α × β)}, removeGetM l k = some (v, l2) →
      lookupM l2 k2 = lookupM l k2 := by
  induction l with
  | nil => intro v l2 h; simp [removeGetM] at h
  | cons kv rest ih =>
    intro v l2 h
    obtain ⟨k0, v0⟩ := kv
    by_cases hk : k0 = k
    · simp [removeGetM, hk] at h
      rw [← h.2]
      have hne2 : k0 ≠ k2 := by
        rw [hk]
        exact Ne.symm hne
      simp [lookupM, hne2]
    · simp only [removeGetM, if_neg hk] at h
      match hrec : removeGetM rest k with
      | none => rw [hrec] at h; cases h
      | some (v2, rest2) =>
        rw [hrec] at h
        simp at h
        obtain ⟨-, hl⟩ := h
        rw [← hl]
        by_cases hk2 : k0 = k2
        · simp [lookupM, hk2]
        · simp [lookupM, hk2]
          exact ih hrec

theorem removeGetM_lookup_self {α β : Type} [DecidableEq α] {l : List (α × β)} {k : α}
    (hnd : (l.map Prod.fst).Nodup) :
    ∀ {v : β} {l2 : List (α × β)}, removeGetM l k = some (v, l2) →
      lookupM l2 k = none := by
  induction l with
  | nil => intro v l2 h; simp [removeGetM] at h
  | cons kv rest ih =>
    intro v l2 h
    obtain ⟨k0, v0⟩ := kv
    simp only [List.map_cons, List.nodup_cons] at hnd
    by_cases hk : k0 = k
    · simp [removeGetM, hk] at h
      rw [← h.2]
      subst hk
      cases hres : lookupM rest k0 with
      | none => rfl
      | some v3 =>
        exact absurd (List.mem_map_of_mem Prod.fst (lookupM_some_mem hres)) hnd.1
    · simp only [removeGetM, if_neg hk] at h
      match hrec : removeGetM rest k with
      | none => rw [hrec] at h; cases h
      | some (v2, rest2) =>
        rw [hrec] at h
        simp at h
        obtain ⟨-, hl⟩ := h
        rw [← hl]
        simp [lookupM, hk]
        exact ih hnd.2 hrec

theorem removeGetM_none_iff {α β : Type} [DecidableEq α] (l : List (α × β)) (k : α) :
    removeGetM l k = none ↔ lookupM l k = none := by
  induction l with
  | nil => simp [removeGetM, lookupM]
  | cons kv rest ih =>
    obtain ⟨k0, v0⟩ := kv
    by_cases hk : k0 = k
    · simp [removeGetM, lookupM, hk]
    · simp only [removeGetM, lookupM, if_neg hk]
      match hrec : removeGetM rest k with
      | none => simp [ih.mp hrec]
      | some (v2, rest2) =>
        simp
        intro hc
        rw [← ih] at hc
        rw [hrec] at hc
        cases hc

theorem get?_eraseIdx_lt {α : Type} (l : List α) (p q : Nat) (h : q < p) :
    (l.eraseIdx p).get? q = l.get? q := by
  induction l generalizing p q with
  | nil => simp [List.eraseIdx]
  | cons a rest ih =>
    match p, q with
    | 0, q => omega
    | p2 + 1, 0 => simp [List.eraseIdx]
    | p2 + 1, q2 + 1 =>
      simp only [List.eraseIdx, List.get?]
      exact ih p2 q2 (by omega)

theorem get?_eraseIdx_ge {α : Type} (l : List α) (p q : Nat) (h : p ≤ q) :
    (l.eraseIdx p).get? q = l.get? (q + 1) := by
  induction l generalizing p q with
  | nil => simp [List.eraseIdx]
  | cons a rest ih =>
    match p, q with
    | 0, q => simp [List.eraseIdx]
    | p2 + 1, 0 => omega
    | p2 + 1, q2 + 1 =>
      simp only [List.eraseIdx, List.get?]
      exact ih p2 q2 (by omega)

theorem get?_some_lt {α : Type} {l : List α} {n : Nat} {a : α} (h : l.get? n = some a) :
    n < l.length := by
  induction l generalizing n with
  | nil => cases h
  | cons b rest ih =>
    match n with
    | 0 => simp
    | n2 + 1 =>
      simp only [List.get?] at h
      exact Nat.succ_lt_succ (ih h)

theorem get?_of_lt {α : Type} {l : List α} {n : Nat} (h : n < l.length) :
    ∃ a, l.get? n = some a := by
  induction l generalizing n with
  | nil => simp at h
  | cons b rest ih =>
    match n with
    | 0 => exact ⟨b, rfl⟩
    | n2 + 1 => exact ih (Nat.lt_of_succ_lt_succ h)

theorem get?_none_of_ge {α : Type} (l : List α) (n : Nat) (h : l.length ≤ n) :
    l.get? n = none := by
  induction l generalizing n with
  | nil => rfl
  | cons b rest ih =>
    match n with
    | 0 => simp at h
    | n2 + 1 => exact ih n2 (Nat.le_of_succ_le_succ h)

theorem get?_append_lt {α : Type} (l1 l2 : List α) (n : Nat) (h : n < l1.length) :
    (l1 ++ l2).get? n = l1.get? n := by
  induction l1 generalizing n with
  | nil => simp at h
  | cons b rest ih =>
    match n with
    | 0 => rfl
    | n2 + 1 => exact ih n2 (Nat.lt_of_succ_lt_succ h)

theorem get?_concat_len {α : Type} (l : List α) (x : α) :
    (l ++ [x]).get? l.length = some x := by
  induction l with
  | nil => rfl
  | cons b rest ih => exact ih

theorem get?_set_self {α : Type} (l : List α) (i : Nat) (a : α) (h : i < l.length) :
    (l.set i a).get? i = some a := by
  induction l generalizing i with
  | nil => simp at h
  | cons b rest ih =>
    match i with
    | 0 => rfl
    | i2 + 1 => exact ih i2 (Nat.lt_of_succ_lt_succ h)

theorem get?_set_ne {α : Type} (l : List α) (i p : Nat) (a : α) (h : p ≠ i) :
    (l.set i a).get? p = l.get? p := by
  induction l generalizing i p with
  | nil => rfl
  | cons b rest ih =>
    match i, p with
    | 0, 0 => exact absurd rfl h
    | 0, p2 + 1 => rfl
    | i2 + 1, 0 => rfl
    | i2 + 1, p2 + 1 => exact ih i2 p2 (fun he => h (congrArg Nat.succ he))

theorem get?_concat_cases {α : Type} {l : List α} {x r : α} {p : Nat}
    (h : (l ++ [x]).get? p = some r) :
    (p < l.length ∧ l.get? p = some r) ∨ (p = l.length ∧ r = x) := by
  rcases Nat.lt_trichotomy p l.length with hlt | heq | hgt
  · left
    exact ⟨hlt, by rwa [get?_append_lt _ _ _ hlt] at h⟩
  · right
    refine ⟨heq, ?_⟩
    rw [heq, get?_concat_len] at h
    exact (Option.some.inj h).symm
  · exfalso
    have hnone : (l ++ [x]).get? p = none := by
      apply get?_none_of_ge
      rw [List.length_append]
      simp only [List.length_cons, List.length_nil]
      omega
    rw [hnone] at h
    cases h

theorem TableWF_empty (name : String) : TableWF ⟨name, [], []⟩ := by
  constructor
  · exact List.nodup_nil
  · intro id p
    constructor
    · intro h
      cases h
    · rintro ⟨r, hg, -⟩
      cases hg

/-- Appending a fresh record at the end and indexing it at the old length
preserves the invariant (core of both `insert` and `execute_insert`). -/
theorem TableWF_insert_core (t : Table) (id : Nat) (d : List (String × String))
    (hwf : TableWF t) (hfresh : containsM t.index id = false) :
    TableWF { t with records := t.records ++ [⟨id, d⟩],
                     index := insertM t.index id t.records.length } := by
  obtain ⟨hnd, hiff⟩ := hwf
  constructor
  · rw [insertM_eq_append_of_not_contains _ hfresh, List.map_append]
    rw [List.nodup_append]
    refine ⟨hnd, List.nodup_singleton _, ?_⟩
    intro a ha hb
    simp only [List.map_cons, List.map_nil, List.mem_singleton] at hb
    subst hb
    exact not_mem_keys_of_not_contains hfresh ha
  · intro id2 p
    by_cases hid : id2 = id
    · subst hid
      rw [lookupM_insertM_self]
      constructor
      · intro hp
        have hp2 := Option.some.inj hp
        subst hp2
        exact ⟨⟨id2, d⟩, get?_concat_len _ _, rfl⟩
      · intro ⟨r, hg, hr⟩
        rcases get?_concat_cases hg with ⟨hlt, hold⟩ | ⟨hp, -⟩
        · exfalso
          have : lookupM t.index id2 = some p := (hiff id2 p).mpr ⟨r, hold, hr⟩
          rw [containsM, this] at hfresh
          cases hfresh
        · rw [hp]
    · rw [lookupM_insertM_ne _ _ _ _ hid, hiff id2 p]
      constructor
      · intro ⟨r, hg, hr⟩
        have hlt := get?_some_lt hg
        exact ⟨r, by rw [get?_append_lt _ _ _ hlt]; exact hg, hr⟩
      · intro ⟨r, hg, hr⟩
        rcases get?_concat_cases hg with ⟨hlt, hold⟩ | ⟨-, hx⟩
        · exact ⟨r, hold, hr⟩
        · exfalso
          rw [hx] at hr
          exact hid hr.symm

/-- Overwriting the data of the record stored at a valid position (id
unchanged) preserves the invariant (core of `update` and
`execute_update`). -/
theorem TableWF_set_data (t : Table) (i : Nat) (r : Record) (d : List (String × String))
    (hwf : TableWF t) (hget : t.records.get? i = some r) :
    TableWF { t with records := t.records.set i { r with data := d } } := by
  obtain ⟨hnd, hiff⟩ := hwf
  refine ⟨hnd, ?_⟩
  intro id2 p
  rw [hiff id2 p]
  by_cases hp : p = i
  · subst hp
    have hlt := get?_some_lt hget
    constructor
    · intro ⟨r3, hg, hid⟩
      rw [hget] at hg
      have heq := Option.some.inj hg
      refine ⟨{ r with data := d }, get?_set_self _ _ _ hlt, ?_⟩
      rw [show ({ r with data := d } : Record).id = r.id from rfl, heq]
      exact hid
    · intro ⟨r3, hg, hid⟩
      rw [get?_set_self _ _ _ hlt] at hg
      have heq := Option.some.inj hg
      refine ⟨r, hget, ?_⟩
      have hr : r.id = r3.id := by rw [← heq]
      rw [hr]
      exact hid
  · constructor
    · intro ⟨r3, hg, hid⟩
      exact ⟨r3, by rw [get?_set_ne _ _ _ _ hp]; exact hg, hid⟩
    · intro ⟨r3, hg, hid⟩
      rw [get?_set_ne _ _ _ _ hp] at hg
      exact ⟨r3, hg, hid⟩

/-- Core of the delete algorithm: removing the indexed record at position
`p` and decrementing the indexed positions above `p` keeps the invariant;
the deleted id is no longer indexed, and every other id moves from `q` to
`shiftIndex q p`. -/
theorem TableWF_erase_core (t : Table) (id p : Nat) (index2 : List (Nat × Nat))
    (hwf : TableWF t) (hrm : removeGetM t.index id = some (p, index2)) :
    (∃ r, t.records.get? p = some r ∧ r.id = id) ∧
    p < t.records.length ∧
    TableWF { t with records := t.records.eraseIdx p,
                     index := index2.map (shiftEntry p) } ∧
    lookupM (index2.map (shiftEntry p)) id = none ∧
    (∀ id2 q, id2 ≠ id → lookupM t.index id2 = some q →
      lookupM (index2.map (shiftEntry p)) id2 =
        some (shiftIndex q p)) := by
  obtain ⟨hnd, hiff⟩ := hwf
  have hlk : lookupM t.index id = some p := removeGetM_some_lookup hrm
  obtain ⟨r0, hg0, hid0⟩ := (hiff id p).mp hlk
  have hplen : p < t.records.length := get?_some_lt hg0
  have hsub : index2.Sublist t.index := removeGetM_sublist hrm
  have hnd2 : (index2.map Prod.fst).Nodup :=
    List.Nodup.sublist (List.Sublist.map Prod.fst hsub) hnd
  have hself : lookupM index2 id = none := removeGetM_lookup_self hnd hrm
  have hneq : ∀ k2, k2 ≠ id → lookupM index2 k2 = lookupM t.index k2 :=
    fun k2 h => removeGetM_lookup_ne h hrm
  refine ⟨⟨r0, hg0, hid0⟩, hplen, ⟨?_, ?_⟩, ?_, ?_⟩
  · rw [show ({ t with records := t.records.eraseIdx p, index := index2.map (shiftEntry p) } : Table).index = index2.map (shiftEntry p) from rfl, keys_map_shiftEntry]
    exact hnd2
  · intro id2 q
    rw [show ({ t with records := t.records.eraseIdx p, index := index2.map (shiftEntry p) } : Table).index = index2.map (shiftEntry p) from rfl,
      show ({ t with records := t.records.eraseIdx p, index := index2.map (shiftEntry p) } : Table).records = t.records.eraseIdx p from rfl,
      lookupM_map_shiftEntry]
    by_cases hid2 : id2 = id
    · subst hid2
      rw [hself, Option.map_none']
      constructor
      · intro hc
        cases hc
      · rintro ⟨r1, hg1, hid1⟩
        exfalso
        rcases Nat.lt_or_ge q p with hq | hq
        · rw [get?_eraseIdx_lt _ _ _ hq] at hg1
          have := hlk.symm.trans ((hiff id2 q).mpr ⟨r1, hg1, hid1⟩)
          have := Option.some.inj this
          omega
        · rw [get?_eraseIdx_ge _ _ _ hq] at hg1
          have := hlk.symm.trans ((hiff id2 (q + 1)).mpr ⟨r1, hg1, hid1⟩)
          have := Option.some.inj this
          omega
    · rw [hneq id2 hid2]
      constructor
      · intro hc
        cases hl0 : lookupM t.index id2 with
        | none =>
          rw [hl0, Option.map_none'] at hc
          cases hc
        | some q0 =>
          rw [hl0, Option.map_some'] at hc
          have hq := Option.some.inj hc
          obtain ⟨r1, hg1, hid1⟩ := (hiff id2 q0).mp hl0
          have hq0p : q0 ≠ p := by
            intro he
            subst he
            rw [hg0] at hg1
            have := Option.some.inj hg1
            subst this
            exact hid2 (hid0 ▸ hid1.symm ▸ rfl)
          rcases Nat.lt_or_ge q0 p with hqlt | hqge
          · rw [shiftIndex, if_neg (by omega)] at hq
            subst hq
            exact ⟨r1, by rw [get?_eraseIdx_lt _ _ _ hqlt]; exact hg1, hid1⟩
          · have hqgt : p < q0 := by omega
            rw [shiftIndex, if_pos hqgt] at hq
            subst hq
            refine ⟨r1, ?_, hid1⟩
            rw [get?_eraseIdx_ge _ _ _ (by omega), show q0 - 1 + 1 = q0 by omega]
            exact hg1
      · rintro ⟨r1, hg1, hid1⟩
        rcases Nat.lt_or_ge q p with hq | hq
        · rw [get?_eraseIdx_lt _ _ _ hq] at hg1
          rw [(hiff id2 q).mpr ⟨r1, hg1, hid1⟩, Option.map_some']
          rw [shiftIndex, if_neg (by omega)]
        · rw [get?_eraseIdx_ge _ _ _ hq] at hg1
          rw [(hiff id2 (q + 1)).mpr ⟨r1, hg1, hid1⟩, Option.map_some']
          rw [shiftIndex, if_pos (by omega), show q + 1 - 1 = q by omega]
  · rw [lookupM_map_shiftEntry, hself, Option.map_none']
  · intro id2 q hid2 hl
    rw [lookupM_map_shiftEntry, hneq id2 hid2, hl, Option.map_some']

theorem DatabaseWF_insertT {db : Database} {nm : String} {t2 : Table}
    (h : DatabaseWF db) (ht : TableWF t2) : DatabaseWF ⟨insertM db.tables nm t2⟩ := by
  intro name tab hl
  have hl2 : lookupM (insertM db.tables nm t2) name = some tab := hl
  by_cases hn : name = nm
  · subst hn
    rw [lookupM_insertM_self] at hl2
    obtain rfl := Option.some.inj hl2
    exact ht
  · rw [lookupM_insertM_ne _ _ _ _ hn] at hl2
    exact h name tab hl2

theorem tableWFb_iff (t : Table) : tableWFb t = true ↔ TableWF t := by
  rw [tableWFb]
  simp only [Bool.and_eq_true, decide_eq_true_eq, List.all_eq_true]
  constructor
  · rintro ⟨⟨hnd, hB⟩, hC⟩
    refine ⟨hnd, ?_⟩
    intro id p
    constructor
    · intro hl
      have hmem := lookupM_some_mem hl
      have := hB _ hmem
      cases hg : t.records.get? p with
      | none => rw [hg] at this; cases this
      | some r =>
        rw [hg] at this
        simp only [beq_iff_eq] at this
        exact ⟨r, rfl, this⟩
    · rintro ⟨r, hg, hid⟩
      have hlt := get?_some_lt hg
      have := hC p (List.mem_range.mpr hlt)
      rw [hg] at this
      simp only [beq_iff_eq] at this
      rw [hid] at this
      exact this
  · rintro ⟨hnd, hiff⟩
    refine ⟨⟨hnd, ?_⟩, ?_⟩
    · rintro ⟨k, p⟩ hmem
      have hl := lookupM_of_nodup_mem hnd hmem
      obtain ⟨r, hg, hid⟩ := (hiff k p).mp hl
      rw [hg]
      simp only [beq_iff_eq]
      exact hid
    · intro p hp
      obtain ⟨r, hg⟩ := get?_of_lt (List.mem_range.mp hp)
      rw [hg]
      simp only [beq_iff_eq]
      exact (hiff r.id p).mpr ⟨r, hg, rfl⟩

theorem dbWFb_DatabaseWF {db : Database} (h : dbWFb db = true) : DatabaseWF db := by
  intro name tab hl
  have hmem := lookupM_some_mem hl
  rw [dbWFb, List.all_eq_true] at h
  exact (tableWFb_iff tab).mp (h _ hmem)

/-- The spec invariant, clause by clause, follows from `TableWF`. -/
theorem TableWF_implies_tableInv (t : Table) (h : TableWF t) : tableInv t = true := by
  obtain ⟨hnd, hiff⟩ := h
  rw [tableInv]
  simp only [Bool.and_eq_true, List.all_eq_true]
  refine ⟨⟨?_, ?_⟩, ?_⟩
  · rintro ⟨k, p⟩ hmem
    have hl := lookupM_of_nodup_mem hnd hmem
    obtain ⟨r, hg, hid⟩ := (hiff k p).mp hl
    rw [hg]
    simp only [beq_iff_eq]
    exact hid
  · intro r hmem
    obtain ⟨n, hg⟩ := List.get?_of_mem hmem
    have := (hiff r.id n).mpr ⟨r, hg, rfl⟩
    rw [containsM, this]
    rfl
  · intro p hp
    obtain ⟨r, hg⟩ := get?_of_lt (List.mem_range.mp hp)
    have := (hiff r.id p).mpr ⟨r, hg, rfl⟩
    rw [List.any_eq_true]
    exact ⟨(r.id, p), lookupM_some_mem this, by simp⟩

theorem create_table_exists {db : Database} {name : String}
    (h : containsM db.tables name = true) :
    db.create_table name = (Res.err ("Table " ++ name ++ " already exists"), db) := by
  simp [Database.create_table, h]

theorem create_table_fresh {db : Database} {name : String}
    (h : containsM db.tables name = false) :
    db.create_table name = (Res.ok (), ⟨insertM db.tables name ⟨name, [], []⟩⟩) := by
  simp [Database.create_table, h]

theorem insert_no_table {db : Database} {tn : String} {id : Nat}
    {d : List (String × String)} (h : lookupM db.tables tn = none) :
    db.insert tn id d = (Res.err ("Table " ++ tn ++ " not found"), db) := by
  simp [Database.insert, h]

theorem insert_dup {db : Database} {tn : String} {id : Nat} {d : List (String × String)}
    {table : Table} (hl : lookupM db.tables tn = some table)
    (hc : containsM table.index id = true) :
    db.insert tn id d =
      (Res.err ("Record with given id already exists in table " ++ tn), db) := by
  simp [Database.insert, hl, hc]

theorem insert_ok {db : Database} {tn : String} {id : Nat} {d : List (String × String)}
    {table : Table} (hl : lookupM db.tables tn = some table)
    (hc : containsM table.index id = false) :
    db.insert tn id d =
      (Res.ok (), ⟨insertM db.tables tn
        { table with records := table.records ++ [⟨id, d⟩],
                     index := insertM table.index id table.records.length }⟩) := by
  simp [Database.insert, hl, hc]

theorem get_no_table {db : Database} {tn : String} {id : Nat}
    (h : lookupM db.tables tn = none) :
    db.get tn id = Res.err ("Table " ++ tn ++ " not found") := by
  simp [Database.get, h]

theorem get_absent {db : Database} {tn : String} {id : Nat} {table : Table}
    (hl : lookupM db.tables tn = some table) (hi : lookupM table.index id = none) :
    db.get tn id = Res.ok none := by
  simp [Database.get, hl, hi]

theorem get_found {db : Database} {tn : String} {id i : Nat} {table : Table} {r : Record}
    (hl : lookupM db.tables tn = some table) (hi : lookupM table.index id = some i)
    (hg : table.records.get? i = some r) :
    db.get tn id = Res.ok (some r) := by
  have hg2 : table.records[i]? = some r := by
    rw [← List.get?_eq_getElem?]
    exact hg
  simp [Database.get, hl, hi, hg2]

theorem update_ok {db : Database} {tn : String} {id i : Nat} {d : List (String × String)}
    {table : Table} {r : Record} (hl : lookupM db.tables tn = some table)
    (hi : lookupM table.index id = some i) (hg : table.records.get? i = some r) :
    db.update tn id d =
      (Res.ok (), ⟨insertM db.tables tn
        { table with records := table.records.set i { r with data := d } }⟩) := by
  have hg2 : table.records[i]? = some r := by
    rw [← List.get?_eq_getElem?]
    exact hg
  simp [Database.update, hl, hi, hg2]

theorem delete_no_record {db : Database} {tn : String} {id : Nat} {table : Table}
    (hl : lookupM db.tables tn = some table) (hr : removeGetM table.index id = none) :
    db.delete tn id =
      (Res.err ("Record with given id not found in table " ++ tn), db) := by
  simp [Database.delete, hl, hr]

theorem delete_found {db : Database} {tn : String} {id p : Nat} {table : Table}
    {index2 : List (Nat × Nat)} (hl : lookupM db.tables tn = some table)
    (hr : removeGetM table.index id = some (p, index2)) (hp : p < table.records.length) :
    db.delete tn id =
      (Res.ok (), ⟨insertM db.tables tn
        { table with records := table.records.eraseIdx p,
                     index := index2.map (shiftEntry p) }⟩) := by
  simp [Database.delete, hl, hr, hp]

theorem execute_insert_found {db : Database} {tn : String} {columns values : List String}
    {table : Table} (hl : lookupM db.tables tn = some table) :
    db.execute_insert tn columns values =
      (Res.ok [⟨table.records.length + 1, buildData columns values⟩],
       ⟨insertM db.tables tn
         { table with
             records := table.records ++ [⟨table.records.length + 1, buildData columns values⟩],
             index := insertM table.index (table.records.length + 1)
               table.records.length }⟩) := by
  simp [Database.execute_insert, hl]

theorem deleteLoop_WF : ∀ (ids : List Nat) (t : Table) (acc : List Record),
    TableWF t → ∃ out t2, deleteLoop ids t acc = Res.ok (out, t2) ∧ TableWF t2 := by
  intro ids
  induction ids with
  | nil =>
    intro t acc h
    exact ⟨acc, t, rfl, h⟩
  | cons id rest ih =>
    intro t acc h
    cases hr : removeGetM t.index id with
    | none =>
      obtain ⟨out, t2, heq, h2⟩ := ih t acc h
      refine ⟨out, t2, ?_, h2⟩
      simp only [deleteLoop, hr]
      exact heq
    | some vp =>
      obtain ⟨p, index2⟩ := vp
      obtain ⟨⟨r, hg, hid⟩, hplen, hwf2, -, -⟩ := TableWF_erase_core t id p index2 h hr
      obtain ⟨out, t2, heq, h2⟩ := ih _ (acc ++ [r]) hwf2
      refine ⟨out, t2, ?_, h2⟩
      simp only [deleteLoop, hr, hg]
      exact heq

theorem WF_execute_delete (db : Database) (tn : String) (cond : Option Condition)
    (h : DatabaseWF db) : DatabaseWF (db.execute_delete tn cond).2 := by
  cases hl : lookupM db.tables tn with
  | none =>
    simp only [Database.execute_delete, hl]
    exact h
  | some t =>
    obtain ⟨out, t2, heq, h2⟩ :=
      deleteLoop_WF ((t.records.filter (fun r => evaluate_condition r cond)).map Record.id)
        t [] (h tn t hl)
    simp only [Database.execute_delete, hl, heq]
    exact DatabaseWF_insertT h h2

theorem WF_create_table (db : Database) (name : String) (h : DatabaseWF db) :
    DatabaseWF (db.create_table name).2 := by
  cases hc : containsM db.tables name with
  | true =>
    rw [create_table_exists hc]
    exact h
  | false =>
    rw [create_table_fresh hc]
    exact DatabaseWF_insertT h (TableWF_empty name)

theorem WF_insert (db : Database) (tn : String) (id : Nat) (d : List (String × String))
    (h : DatabaseWF db) : DatabaseWF (db.insert tn id d).2 := by
  cases hl : lookupM db.tables tn with
  | none =>
    rw [insert_no_table hl]
    exact h
  | some table =>
    cases hc : containsM table.index id with
    | true =>
      rw [insert_dup hl hc]
      exact h
    | false =>
      rw [insert_ok hl hc]
      exact DatabaseWF_insertT h (TableWF_insert_core table id d (h tn table hl) hc)

theorem WF_update (db : Database) (tn : String) (id : Nat) (d : List (String × String))
    (h : DatabaseWF db) : DatabaseWF (db.update tn id d).2 := by
  cases hl : lookupM db.tables tn with
  | none =>
    simp only [Database.update, hl]
    exact h
  | some table =>
    cases hi : lookupM table.index id with
    | none =>
      simp only [Database.update, hl, hi]
      exact h
    | some i =>
      obtain ⟨r, hg, -⟩ := ((h tn table hl).2 id i).mp hi
      rw [update_ok hl hi hg]
      exact DatabaseWF_insertT h (TableWF_set_data table i r d (h tn table hl) hg)

theorem WF_delete (db : Database) (tn : String) (id : Nat) (h : DatabaseWF db) :
    DatabaseWF (db.delete tn id).2 := by
  cases hl : lookupM db.tables tn with
  | none =>
    simp only [Database.delete, hl]
    exact h
  | some table =>
    cases hr : removeGetM table.index id with
    | none =>
      rw [delete_no_record hl hr]
      exact h
    | some vp =>
      obtain ⟨p, index2⟩ := vp
      obtain ⟨-, hplen, hwf2, -, -⟩ :=
        TableWF_erase_core table id p index2 (h tn table hl) hr
      rw [delete_found hl hr hplen]
      exact DatabaseWF_insertT h hwf2

theorem WF_execute_insert (db : Database) (tn : String) (cols vals : List String)
    (h : DatabaseWF db)
    (hfresh : ∀ table, lookupM db.tables tn = some table →
      containsM table.index (table.records.length + 1) = false) :
    DatabaseWF (db.execute_insert tn cols vals).2 := by
  cases hl : lookupM db.tables tn with
  | none =>
    simp only [Database.execute_insert, hl]
    exact h
  | some table =>
    rw [execute_insert_found hl]
    exact DatabaseWF_insertT h
      (TableWF_insert_core table (table.records.length + 1) (buildData cols vals)
        (h tn table hl) (hfresh table hl))

theorem get?_map {α β : Type} (f : α → β) (l : List α) (n : Nat) :
    (l.map f).get? n = (l.get? n).map f := by
  induction l generalizing n with
  | nil => rfl
  | cons a rest ih =>
    match n with
    | 0 => rfl
    | n2 + 1 => exact ih n2

theorem nodup_of_get?_inj {α : Type} (l : List α)
    (h : ∀ n1 n2 a, l.get? n1 = some a → l.get? n2 = some a → n1 = n2) : l.Nodup := by
  induction l with
  | nil => exact List.nodup_nil
  | cons b rest ih =>
    rw [List.nodup_cons]
    constructor
    · intro hmem
      obtain ⟨n, hn⟩ := List.get?_of_mem hmem
      have h0 := h 0 (n + 1) b rfl hn
      omega
    · exact ih (fun n1 n2 a h1 h2 => by
        have hs := h (n1 + 1) (n2 + 1) a h1 h2
        omega)

theorem TableWF_ids_nodup (t : Table) (h : TableWF t) :
    (t.records.map Record.id).Nodup := by
  obtain ⟨-, hiff⟩ := h
  apply nodup_of_get?_inj
  intro n1 n2 a h1 h2
  rw [get?_map] at h1 h2
  cases hg1 : t.records.get? n1 with
  | none => rw [hg1] at h1; cases h1
  | some r1 =>
    cases hg2 : t.records.get? n2 with
    | none => rw [hg2] at h2; cases h2
    | some r2 =>
      rw [hg1, Option.map_some'] at h1
      rw [hg2, Option.map_some'] at h2
      have l1 := (hiff a n1).mpr ⟨r1, hg1, Option.some.inj h1⟩
      have l2 := (hiff a n2).mpr ⟨r2, hg2, Option.some.inj h2⟩
      exact Option.some.inj (l1.symm.trans l2)

theorem filterMap_congr2 {α β : Type} {l : List α} {f g : α → Option β}
    (h : ∀ a ∈ l, f a = g a) : l.filterMap f = l.filterMap g := by
  induction l with
  | nil => rfl
  | cons a rest ih =>
    rw [List.filterMap_cons, List.filterMap_cons, h a (List.mem_cons_self a rest),
      ih (fun b hb => h b (List.mem_cons_of_mem a hb))]

theorem option_bind_some {α β : Type} (a : α) (f : α → Option β) :
    (some a).bind f = f a := rfl

theorem Table_name_mk (n : String) (rs : List Record) (ix : List (Nat × Nat)) :
    (Table.mk n rs ix).name = n := rfl

theorem Table_records_mk (n : String) (rs : List Record) (ix : List (Nat × Nat)) :
    (Table.mk n rs ix).records = rs := rfl

theorem Table_index_mk (n : String) (rs : List Record) (ix : List (Nat × Nat)) :
    (Table.mk n rs ix).index = ix := rfl

/-- The per-id result of the `execute_update` loop, computed over the
original table: find the id through the index and update the named column
if present. -/
def updOne (col v : String) (t : Table) (j : Nat) : Option Record :=
  (lookupM t.index j).bind (fun q =>
    (t.records.get? q).bind (fun r =>
      if containsM r.data col = true then some ⟨r.id, insertM r.data col v⟩
      else none))

theorem updateLoop_spec (col v : String) :
    ∀ (ids : List Nat) (t : Table) (acc : List Record),
      TableWF t → ids.Nodup →
      (∀ j ∈ ids, containsM t.index j = true) →
      ∃ t2 out,
        updateLoop col v ids t acc = Res.ok (acc ++ out, t2) ∧
        t2.name = t.name ∧
        t2.index = t.index ∧
        t2.records.length = t.records.length ∧
        TableWF t2 ∧
        (∀ p r, t.records.get? p = some r →
          t2.records.get? p =
            (if r.id ∈ ids ∧ containsM r.data col = true then
              some ⟨r.id, insertM r.data col v⟩
            else some r)) ∧
        out = ids.filterMap (updOne col v t) := by
  intro ids
  induction ids with
  | nil =>
    intro t acc hwf h1 h2
    refine ⟨t, [], by simp [updateLoop], rfl, rfl, rfl, hwf, ?_, rfl⟩
    intro p r hg
    rw [hg]
    simp
  | cons id rest ih =>
    intro t acc hwf hnodup hpres
    obtain ⟨hnotmem, hnodup2⟩ := List.nodup_cons.mp hnodup
    have hcid := hpres id (List.mem_cons_self id rest)
    cases hi : lookupM t.index id with
    | none =>
      rw [containsM, hi] at hcid
      cases hcid
    | some i =>
      obtain ⟨r, hg, hid⟩ := (hwf.2 id i).mp hi
      have hlt : i < t.records.length := get?_some_lt hg
      by_cases hc : containsM r.data col = true
      · -- the column is present: the record at position i is overwritten
        have hwf2 := TableWF_set_data t i r (insertM r.data col v) hwf hg
        obtain ⟨t2, out2, heq2, hname2, hindex2, hlen2, hwf3, hchar2, hout2⟩ :=
          ih { t with records := t.records.set i ⟨r.id, insertM r.data col v⟩ }
            (acc ++ [⟨r.id, insertM r.data col v⟩]) hwf2 hnodup2
            (fun j hj => hpres j (List.mem_cons_of_mem id hj))
        refine ⟨t2, ⟨r.id, insertM r.data col v⟩ :: out2, ?_, hname2, hindex2, ?_, hwf3,
          ?_, ?_⟩
        · simp only [updateLoop, hi, hg]
          rw [if_pos hc, heq2]
          simp [List.append_assoc]
        · rw [hlen2]
          simp
        · intro p r3 hg3
          by_cases hpi : p = i
          · subst hpi
            rw [hg] at hg3
            obtain rfl := Option.some.inj hg3
            rw [if_pos ⟨by rw [hid]; exact List.mem_cons_self id rest, hc⟩]
            have hstep := hchar2 p ⟨r.id, insertM r.data col v⟩ (get?_set_self _ _ _ hlt)
            rw [if_neg] at hstep
            · exact hstep
            · rintro ⟨hmem, -⟩
              exact hnotmem (hid ▸ hmem)
          · have hgt : (t.records.set i ⟨r.id, insertM r.data col v⟩).get? p = some r3 := by
              rw [get?_set_ne _ _ _ _ hpi]
              exact hg3
            have hne3 : r3.id ≠ id := by
              intro he
              have := (hwf.2 id p).mpr ⟨r3, hg3, he⟩
              rw [hi] at this
              exact hpi (Option.some.inj this).symm
            have hstep := hchar2 p r3 hgt
            rw [hstep]
            by_cases hmem : r3.id ∈ rest ∧ containsM r3.data col = true
            · rw [if_pos hmem, if_pos ⟨List.mem_cons_of_mem _ hmem.1, hmem.2⟩]
            · rw [if_neg hmem, if_neg (fun hcc =>
                hmem ⟨(List.mem_cons.mp hcc.1).resolve_left hne3, hcc.2⟩)]
        · have hfid : updOne col v t id = some ⟨r.id, insertM r.data col v⟩ := by
            unfold updOne
            rw [hi, option_bind_some, hg, option_bind_some, if_pos hc]
          rw [List.filterMap_cons, hfid, hout2]
          congr 1
          apply filterMap_congr2
          intro j hj
          have hjid : j ≠ id := fun he => hnotmem (he ▸ hj)
          simp only [updOne, Table_index_mk, Table_records_mk]
          cases hlj : lookupM t.index j with
          | none => rfl
          | some q =>
            simp only [option_bind_some]
            obtain ⟨rj, hgj, hidj⟩ := (hwf.2 j q).mp hlj
            have hqi : q ≠ i := by
              intro he
              subst he
              rw [hg] at hgj
              obtain rfl := Option.some.inj hgj
              exact hjid (hidj.symm.trans hid)
            rw [get?_set_ne _ _ _ _ hqi]
      · -- the column is absent: the record is skipped
        obtain ⟨t2, out2, heq2, hname2, hindex2, hlen2, hwf3, hchar2, hout2⟩ :=
          ih t acc hwf hnodup2 (fun j hj => hpres j (List.mem_cons_of_mem id hj))
        refine ⟨t2, out2, ?_, hname2, hindex2, hlen2, hwf3, ?_, ?_⟩
        · simp only [updateLoop, hi, hg]
          rw [if_neg hc]
          exact heq2
        · intro p r3 hg3
          by_cases hpi : p = i
          · subst hpi
            rw [hg] at hg3
            obtain rfl := Option.some.inj hg3
            rw [if_neg (fun hcc => hc hcc.2)]
            have hstep := hchar2 p r hg
            rw [if_neg (fun hcc => hc hcc.2)] at hstep
            exact hstep
          · have hne3 : r3.id ≠ id := by
              intro he
              have := (hwf.2 id p).mpr ⟨r3, hg3, he⟩
              rw [hi] at this
              exact hpi (Option.some.inj this).symm
            have hstep := hchar2 p r3 hg3
            rw [hstep]
            by_cases hmem : r3.id ∈ rest ∧ containsM r3.data col = true
            · rw [if_pos hmem, if_pos ⟨List.mem_cons_of_mem _ hmem.1, hmem.2⟩]
            · rw [if_neg hmem, if_neg (fun hcc =>
                hmem ⟨(List.mem_cons.mp hcc.1).resolve_left hne3, hcc.2⟩)]
        · have hfid : updOne col v t id = none := by
            unfold updOne
            rw [hi, option_bind_some, hg, option_bind_some, if_neg hc]
          rw [List.filterMap_cons, hfid, hout2]

theorem mem_filter_ids_iff (table : Table) (hwf : TableWF table)
    (φ : Record → Bool) {p : Nat} {r : Record}
    (hg : table.records.get? p = some r) :
    r.id ∈ (table.records.filter φ).map Record.id ↔ φ r = true := by
  constructor
  · intro hmem
    obtain ⟨r4, hr4mem, hr4id⟩ := List.mem_map.mp hmem
    have hr4 := List.mem_filter.mp hr4mem
    obtain ⟨q, hgq⟩ := List.get?_of_mem hr4.1
    have hq := (hwf.2 r.id q).mpr ⟨r4, hgq, hr4id⟩
    have hp := (hwf.2 r.id p).mpr ⟨r, hg, rfl⟩
    have hqp := Option.some.inj (hq.symm.trans hp)
    subst hqp
    rw [hg] at hgq
    obtain rfl := Option.some.inj hgq
    exact hr4.2
  · intro hφ
    exact List.mem_map.mpr ⟨r, List.mem_filter.mpr ⟨List.get?_mem hg, hφ⟩, rfl⟩

theorem updOne_eq_of_filter (table : Table) (hwf : TableWF table) (col v : String)
    {r : Record} (hmem : r ∈ table.records) :
    updOne col v table r.id =
      (if containsM r.data col = true then some ⟨r.id, insertM r.data col v⟩
       else none) := by
  obtain ⟨n, hgn⟩ := List.get?_of_mem hmem
  have hln := (hwf.2 r.id n).mpr ⟨r, hgn, rfl⟩
  unfold updOne
  rw [hln, option_bind_some, hgn, option_bind_some]

/-- Functional characterization of `execute_update` on an existing,
well-formed table: the condition-matching records owning the named column
are overwritten in that column only and returned in storage order; all
other records are untouched. -/
theorem execute_update_spec (db : Database) (tn col v : String) (cond : Option Condition)
    (table : Table) (hl : lookupM db.tables tn = some table) (hwf : TableWF table) :
    ∃ t2,
      db.execute_update tn col v cond =
        (Res.ok ((table.records.filter (fun r => evaluate_condition r cond)).filterMap
          (fun r => if containsM r.data col = true then
            some ⟨r.id, insertM r.data col v⟩ else none)),
         ⟨insertM db.tables tn t2⟩) ∧
      t2.index = table.index ∧
      t2.records.length = table.records.length ∧
      TableWF t2 ∧
      (∀ p r, table.records.get? p = some r →
        t2.records.get? p =
          (if evaluate_condition r cond = true ∧ containsM r.data col = true then
            some ⟨r.id, insertM r.data col v⟩
          else some r)) := by
  have hids_nodup : ((table.records.filter (fun r => evaluate_condition r cond)).map
      Record.id).Nodup :=
    List.Nodup.sublist (List.Sublist.map Record.id (List.filter_sublist _))
      (TableWF_ids_nodup table hwf)
  have hids_pres : ∀ j ∈ (table.records.filter (fun r => evaluate_condition r cond)).map
      Record.id, containsM table.index j = true := by
    intro j hj
    obtain ⟨r4, hr4mem, hr4id⟩ := List.mem_map.mp hj
    obtain ⟨q, hgq⟩ := List.get?_of_mem (List.mem_filter.mp hr4mem).1
    have := (hwf.2 j q).mpr ⟨r4, hgq, hr4id⟩
    rw [containsM, this]
    rfl
  obtain ⟨t2, out, heq, hname, hindex, hlen, hwf2, hchar, hout⟩ :=
    updateLoop_spec col v
      ((table.records.filter (fun r => evaluate_condition r cond)).map Record.id)
      table [] hwf hids_nodup hids_pres
  refine ⟨t2, ?_, hindex, hlen, hwf2, ?_⟩
  · simp only [Database.execute_update, hl, heq]
    have hout2 : out = (table.records.filter (fun r => evaluate_condition r cond)).filterMap
        (fun r => if containsM r.data col = true then
          some ⟨r.id, insertM r.data col v⟩ else none) := by
      rw [hout, List.filterMap_map]
      apply filterMap_congr2
      intro r hr
      exact updOne_eq_of_filter table hwf col v (List.mem_of_mem_filter hr)
    rw [hout2, List.nil_append]
  · intro p r hg
    have hstep := hchar p r hg
    rw [hstep]
    by_cases hφ : evaluate_condition r cond = true
    · have hmemiff := mem_filter_ids_iff table hwf (fun r => evaluate_condition r cond) hg
      by_cases hc : containsM r.data col = true
      · rw [if_pos ⟨hmemiff.mpr hφ, hc⟩, if_pos ⟨hφ, hc⟩]
      · rw [if_neg (fun hcc => hc hcc.2), if_neg (fun hcc => hc hcc.2)]
    · have hmemiff := mem_filter_ids_iff table hwf (fun r => evaluate_condition r cond) hg
      rw [if_neg (fun hcc => hφ (hmemiff.mp hcc.1)), if_neg (fun hcc => hφ hcc.1)]

theorem WF_execute_update (db : Database) (tn col v : String) (cond : Option Condition)
    (h : DatabaseWF db) : DatabaseWF (db.execute_update tn col v cond).2 := by
  cases hl : lookupM db.tables tn with
  | none =>
    simp only [Database.execute_update, hl]
    exact h
  | some table =>
    obtain ⟨t2, heq, -, -, hwf2, -⟩ :=
      execute_update_spec db tn col v cond table hl (h tn table hl)
    rw [heq]
    exact DatabaseWF_insertT h hwf2

theorem WF_execute_sql (db : Database) (sql : String) (h : DatabaseWF db)
    (hins : ∀ t cols vals, parse_sql sql = Res.ok (SqlStatement.Insert t cols vals) →
      ∀ table, lookupM db.tables t = some table →
        containsM table.index (table.records.length + 1) = false) :
    DatabaseWF (db.execute_sql sql).2 := by
  cases hp : parse_sql sql with
  | err m =>
    simp only [Database.execute_sql, hp]
    exact h
  | panicked =>
    simp only [Database.execute_sql, hp]
    exact h
  | ok stmt =>
    cases stmt with
    | Select t cols cond =>
      simp only [Database.execute_sql, hp]
      exact h
    | Insert t cols vals =>
      simp only [Database.execute_sql, hp]
      exact WF_execute_insert db t cols vals h (hins t cols vals hp)
    | Update t col v cond =>
      simp only [Database.execute_sql, hp]
      exact WF_execute_update db t col v cond h
    | Delete t cond =>
      simp only [Database.execute_sql, hp]
      exact WF_execute_delete db t cond h

/-- Claim C3 (amended): on a well-formed database every table satisfies the
index invariant of the spec (`tableInv`), and well-formedness — hence the
invariant — is preserved by `create_table`, programmatic
`insert`/`update`/`delete`, and by `execute_sql` for every statement
except a textual INSERT whose assigned id `records.len() + 1` is already
indexed (the collision case, possible after deletions, breaks density and
id-uniqueness, see the counterexample). -/
theorem C3_invariant_preservation (db : Database) (h : DatabaseWF db) :
    (∀ name tab, lookupM db.tables name = some tab → tableInv tab = true) ∧
    (∀ n, DatabaseWF (db.create_table n).2) ∧
    (∀ t id d, DatabaseWF (db.insert t id d).2) ∧
    (∀ t id d, DatabaseWF (db.update t id d).2) ∧
    (∀ t id, DatabaseWF (db.delete t id).2) ∧
    (∀ sql, (∀ t cols vals, parse_sql sql = Res.ok (SqlStatement.Insert t cols vals) →
        ∀ table, lookupM db.tables t = some table →
          containsM table.index (table.records.length + 1) = false) →
      DatabaseWF (db.execute_sql sql).2) := by
  refine ⟨?_, ?_, ?_, ?_, ?_, ?_⟩
  · intro name tab hl
    exact TableWF_implies_tableInv tab (h name tab hl)
  · intro n
    exact WF_create_table db n h
  · intro t id d
    exact WF_insert db t id d h
  · intro t id d
    exact WF_update db t id d h
  · intro t id
    exact WF_delete db t id h
  · intro sql hins
    exact WF_execute_sql db sql h hins

/-- Counterexample for C3: after inserting ids 1, 2, 3, deleting id 2 and
then running a textual INSERT, the assigned id `2 + 1 = 3` collides with
the surviving id 3: the stored table now violates the claimed invariant
(two records carry id 3 and position 1 is indexed by no id). -/
def collisionDb : Database :=
  ((((((Database.new.create_table "t").2.insert "t" 1 []).2.insert
    "t" 2 []).2.insert "t" 3 []).2.delete "t" 2).2.execute_sql
    "INSERT INTO t (a) VALUES (1)").2

theorem C3_counterexample :
    (lookupM collisionDb.tables "t").map tableInv = some false := by
  decide

/-- Witness for C3: the amended preservation theorem applied to the empty
database and a `create_table` call. -/
theorem C3_witness : DatabaseWF (Database.new.create_table "t").2 :=
  (C3_invariant_preservation Database.new (fun _ _ hc => nomatch hc)).2.1 "t"

/-- Claim C4: on a well-formed table, `delete` fails when the id is not
indexed and the database is unchanged; otherwise it removes exactly the
record at the position `p` of the id, drops the id from the index, rewrites
the position `q` of every other id to `q - 1` when `q > p` and keeps it when
`q < p`, and a subsequent `get` of the id reports absence. -/
theorem C4_delete_spec (db : Database) (tn : String) (id : Nat) (table : Table)
    (hl : lookupM db.tables tn = some table) (hwf : TableWF table) :
    (lookupM table.index id = none →
      ∃ msg, db.delete tn id = (Res.err msg, db)) ∧
    (∀ p, lookupM table.index id = some p →
      ∃ tab2, (db.delete tn id).1 = Res.ok () ∧
        (db.delete tn id).2 = ⟨insertM db.tables tn tab2⟩ ∧
        tab2.records = table.records.eraseIdx p ∧
        lookupM tab2.index id = none ∧
        (∀ id2 q, id2 ≠ id → lookupM table.index id2 = some q →
          lookupM tab2.index id2 = some (if p < q then q - 1 else q)) ∧
        Database.get (db.delete tn id).2 tn id = Res.ok none) := by
  constructor
  · intro hi
    exact ⟨_, delete_no_record hl ((removeGetM_none_iff _ _).mpr hi)⟩
  · intro p hi
    cases hrm : removeGetM table.index id with
    | none =>
      rw [(removeGetM_none_iff _ _).mp hrm] at hi
      cases hi
    | some vp =>
      obtain ⟨p2, index2⟩ := vp
      have hp2 := removeGetM_some_lookup hrm
      rw [hi] at hp2
      obtain rfl := Option.some.inj hp2
      obtain ⟨-, hplen, -, hgone, hshift⟩ :=
        TableWF_erase_core table id p index2 hwf hrm
      have hdel := delete_found hl hrm hplen
      refine ⟨({ table with
                 records := table.records.eraseIdx p,
                 index := index2.map (shiftEntry p) } : Table), ?_, ?_, rfl, hgone, ?_, ?_⟩
      · rw [hdel]
      · rw [hdel]
      · intro id2 q hne hlq
        have := hshift id2 q hne hlq
        rw [this]
        simp [shiftIndex]
      · rw [hdel]
        exact get_absent (lookupM_insertM_self _ _ _) hgone

/-- Witness for C4: deleting id 1 from a two-record table, the deleted id
is afterwards reported absent. -/
theorem C4_witness :
    Database.get ((Database.mk [("t", ⟨"t", [⟨1, []⟩, ⟨2, []⟩], [(1, 0), (2, 1)]⟩)]).delete
      "t" 1).2 "t" 1 = Res.ok none := by
  obtain ⟨tab2, -, -, -, -, -, hget⟩ :=
    (C4_delete_spec (Database.mk [("t", ⟨"t", [⟨1, []⟩, ⟨2, []⟩], [(1, 0), (2, 1)]⟩)])
      "t" 1 ⟨"t", [⟨1, []⟩, ⟨2, []⟩], [(1, 0), (2, 1)]⟩ (by decide)
      ((tableWFb_iff _).mp (by decide))).2 0 (by decide)
  exact hget

/-- Claim C1 (code bug): `parse_sql` performs unchecked positional accesses, so
keyword-complete but truncated statements panic instead of returning a
parse error: `tokens[set_index + 1]` on `UPDATE t SET`,
`tokens[from_index + 1]` on `SELECT a FROM`, and `tokens[0]` on empty
input are all past the end of the token stream. -/
theorem C1_parse_panics :
    parse_sql "UPDATE t SET" = Res.panicked ∧
    parse_sql "SELECT a FROM" = Res.panicked ∧
    parse_sql "" = Res.panicked ∧
    (Database.execute_sql ⟨[]⟩ "UPDATE t SET").1 = Res.panicked := by
  exact ⟨by decide, by decide, by decide, by decide⟩

/-- Claim C2 (code bug): on `OR` the source recurses with
`parse_where_clause(&tokens[i + 1..])`, but that sub-parser demands a
leading WHERE token; on the ordinary remaining tokens it yields `None`
and the `unwrap` panics, both at the sub-parser level and end to end. -/
theorem C2_or_unwrap_panics :
    parse_where_clause ["WHERE", "a", "=", "1", "OR", "b", "=", "2"] = Res.panicked ∧
    (Database.execute_sql ⟨[("t", ⟨"t", [], []⟩)]⟩
      "SELECT * FROM t WHERE a = 1 OR b = 2").1 = Res.panicked := by
  exact ⟨by decide, by decide⟩

/-- Counterexample for C5: with the exact text of the spec (no blanks inside the
parenthesized lists), `(a,b)` is a single whitespace token, so trimming
only strips the outer parentheses: the stored data is the single column
named `a,b` with value `x,y`, not `{a: x, b: y}` in either order. -/
theorem C5_counterexample :
    (((⟨[("t", ⟨"t", [], []⟩)]⟩ : Database).execute_sql
        "INSERT INTO t (a,b) VALUES (x,y)").2.execute_sql "SELECT * FROM t").1 =
      Res.ok [⟨1, [("a,b", "x,y")]⟩] ∧
    (((⟨[("t", ⟨"t", [], []⟩)]⟩ : Database).execute_sql
        "INSERT INTO t (a,b) VALUES (x,y)").2.execute_sql "SELECT * FROM t").1 ≠
      Res.ok [⟨1, [("a", "x"), ("b", "y")]⟩] ∧
    (((⟨[("t", ⟨"t", [], []⟩)]⟩ : Database).execute_sql
        "INSERT INTO t (a,b) VALUES (x,y)").2.execute_sql "SELECT * FROM t").1 ≠
      Res.ok [⟨1, [("b", "y"), ("a", "x")]⟩] := by
  exact ⟨by decide, by decide, by decide⟩

/-- Claim C5 (amended): a textual INSERT against an existing table assigns
id `records.len() + 1` (not max id + 1), builds the data by the pairwise
zip of the parsed lists (extras dropped), appends and returns exactly the
new record; the round-trip example of the spec holds once the list items are
whitespace-separated (`(a, b)` / `(x, y)`), since comma-joined tokens are
not split. -/
theorem C5_execute_insert (db : Database) (tn : String) (cols vals : List String)
    (table : Table) (hl : lookupM db.tables tn = some table) :
    ((db.execute_insert tn cols vals).1 =
      Res.ok [⟨table.records.length + 1, buildData cols vals⟩] ∧
     (∃ t2, (db.execute_insert tn cols vals).2 = ⟨insertM db.tables tn t2⟩ ∧
       t2.records = table.records ++ [⟨table.records.length + 1, buildData cols vals⟩])) ∧
    (((⟨[("t", ⟨"t", [], []⟩)]⟩ : Database).execute_sql
        "INSERT INTO t (a, b) VALUES (x, y)").2.execute_sql "SELECT * FROM t").1 =
      Res.ok [⟨1, [("a", "x"), ("b", "y")]⟩] := by
  constructor
  · rw [execute_insert_found hl]
    exact ⟨rfl, _, rfl, rfl⟩
  · decide

/-- Witness for C5: inserting a single column into an empty table yields
the record with id 1. -/
theorem C5_witness :
    ((⟨[("t", ⟨"t", [], []⟩)]⟩ : Database).execute_insert "t" ["a"] ["1"]).1 =
      Res.ok [⟨1, [("a", "1")]⟩] :=
  (C5_execute_insert ⟨[("t", ⟨"t", [], []⟩)]⟩ "t" ["a"] ["1"] ⟨"t", [], []⟩
    (by decide)).1.1.trans (by decide)

/-- Claim C6: the condition evaluator clause by clause — Equals needs the
column present with an equal value, NotEquals holds on absence or a
differing value, GreaterThan/LessThan need the column present and compare
strings lexicographically (so `"9" > "30"`), And/Or are boolean
combinations, and a missing condition matches every record. -/
theorem C6_evaluate_condition (r : Record) (c v : String) (l rc : Condition) :
    (evalCond r (Condition.Equals c v) = true ↔ lookupM r.data c = some v) ∧
    (evalCond r (Condition.NotEquals c v) = true ↔
      (lookupM r.data c = none ∨ ∃ x, lookupM r.data c = some x ∧ x ≠ v)) ∧
    (evalCond r (Condition.GreaterThan c v) = true ↔
      ∃ x, lookupM r.data c = some x ∧ ltS v x = true) ∧
    (evalCond r (Condition.LessThan c v) = true ↔
      ∃ x, lookupM r.data c = some x ∧ ltS x v = true) ∧
    (evalCond r (Condition.And l rc) = (evalCond r l && evalCond r rc)) ∧
    (evalCond r (Condition.Or l rc) = (evalCond r l || evalCond r rc)) ∧
    (evaluate_condition r none = true) ∧
    (evalCond ⟨0, [("age", "9")]⟩ (Condition.GreaterThan "age" "30") = true ∧
     evalCond ⟨0, [("age", "30")]⟩ (Condition.GreaterThan "age" "30") = false) := by
  refine ⟨?_, ?_, ?_, ?_, rfl, rfl, rfl, by decide, by decide⟩
  · cases hx : lookupM r.data c with
    | none => simp [evalCond, hx]
    | some x => simp [evalCond, hx]
  · cases hx : lookupM r.data c with
    | none => simp [evalCond, hx]
    | some x => simp [evalCond, hx]
  · cases hx : lookupM r.data c with
    | none => simp [evalCond, hx]
    | some x => simp [evalCond, hx]
  · cases hx : lookupM r.data c with
    | none => simp [evalCond, hx]
    | some x => simp [evalCond, hx]

/-- Claim C7: a textual UPDATE on an existing well-formed table overwrites the
named column on exactly the condition-matching records that already own
it, returns exactly those records, leaves matching records lacking the
column (and all non-matching records) untouched at their positions, and
changes neither ids nor any other column. -/
theorem C7_execute_update (db : Database) (tn col v : String) (cond : Option Condition)
    (table : Table) (hl : lookupM db.tables tn = some table) (hwf : TableWF table) :
    ∃ t2,
      db.execute_update tn col v cond =
        (Res.ok ((table.records.filter (fun r => evaluate_condition r cond)).filterMap
          (fun r => if containsM r.data col = true then
            some ⟨r.id, insertM r.data col v⟩ else none)),
         ⟨insertM db.tables tn t2⟩) ∧
      t2.index = table.index ∧
      t2.records.length = table.records.length ∧
      (∀ p r, table.records.get? p = some r →
        t2.records.get? p =
          (if evaluate_condition r cond = true ∧ containsM r.data col = true then
            some ⟨r.id, insertM r.data col v⟩
          else some r)) ∧
      (∀ (r : Record) (c : String), c ≠ col →
        lookupM (insertM r.data col v) c = lookupM r.data c) ∧
      (∀ (r : Record), (⟨r.id, insertM r.data col v⟩ : Record).id = r.id) := by
  obtain ⟨t2, heq, hindex, hlen, -, hchar⟩ :=
    execute_update_spec db tn col v cond table hl hwf
  exact ⟨t2, heq, hindex, hlen, hchar,
    fun r c hne => lookupM_insertM_ne _ _ _ _ hne, fun r => rfl⟩

/-- Witness for C7: updating column `a` of the sole record of a table. -/
theorem C7_witness :
    ((⟨[("t", ⟨"t", [⟨1, [("a", "x")]⟩], [(1, 0)]⟩)]⟩ : Database).execute_update
      "t" "a" "y" none).1 = Res.ok [⟨1, [("a", "y")]⟩] := by
  obtain ⟨t2, heq, -⟩ :=
    C7_execute_update ⟨[("t", ⟨"t", [⟨1, [("a", "x")]⟩], [(1, 0)]⟩)]⟩ "t" "a" "y" none
      ⟨"t", [⟨1, [("a", "x")]⟩], [(1, 0)]⟩ (by decide) ((tableWFb_iff _).mp (by decide))
  have h1 : ((⟨[("t", ⟨"t", [⟨1, [("a", "x")]⟩], [(1, 0)]⟩)]⟩ : Database).execute_update
      "t" "a" "y" none).1 =
      Res.ok (((⟨"t", [⟨1, [("a", "x")]⟩], [(1, 0)]⟩ : Table).records.filter
        (fun r => evaluate_condition r none)).filterMap
        (fun r => if containsM r.data "a" = true then
          some ⟨r.id, insertM r.data "a" "y"⟩ else none)) := congrArg Prod.fst heq
  exact h1.trans (by decide)

/-- Claim C8: a fresh insert succeeds, a following `get` returns exactly the
inserted data, and a second insert of the same id fails with the
record-exists error, leaving the database unchanged. -/
theorem C8_insert_get (db : Database) (tn : String) (k : Nat)
    (d : List (String × String)) (table : Table)
    (hl : lookupM db.tables tn = some table)
    (hfresh : lookupM table.index k = none) :
    (db.insert tn k d).1 = Res.ok () ∧
    Database.get (db.insert tn k d).2 tn k = Res.ok (some ⟨k, d⟩) ∧
    (∃ msg, (db.insert tn k d).2.insert tn k d =
      (Res.err msg, (db.insert tn k d).2)) := by
  have hc : containsM table.index k = false := by
    rw [containsM, hfresh]
    rfl
  have hins := insert_ok (d := d) hl hc
  refine ⟨by rw [hins], ?_, ?_⟩
  · rw [hins]
    exact get_found (lookupM_insertM_self _ _ _) (lookupM_insertM_self _ _ _)
      (get?_concat_len _ _)
  · rw [hins]
    refine ⟨_, insert_dup (lookupM_insertM_self _ _ _) ?_⟩
    rw [containsM, lookupM_insertM_self]
    rfl

/-- Witness for C8: a concrete fresh insert followed by a get. -/
theorem C8_witness :
    Database.get ((⟨[("t", ⟨"t", [], []⟩)]⟩ : Database).insert "t" 5 [("a", "b")]).2
      "t" 5 = Res.ok (some ⟨5, [("a", "b")]⟩) :=
  (C8_insert_get ⟨[("t", ⟨"t", [], []⟩)]⟩ "t" 5 [("a", "b")] ⟨"t", [], []⟩
    (by decide) (by decide)).2.1

/-- Claim C9: creating a table that already exists fails and leaves the table
map untouched; creating a fresh name succeeds, stores an empty table
under that name, and leaves the binding of every other name unchanged. -/
theorem C9_create_table (db : Database) (name : String) :
    (containsM db.tables name = true →
      ∃ msg, db.create_table name = (Res.err msg, db)) ∧
    (containsM db.tables name = false →
      (db.create_table name).1 = Res.ok () ∧
      lookupM (db.create_table name).2.tables name = some ⟨name, [], []⟩ ∧
      (∀ other, other ≠ name →
        lookupM (db.create_table name).2.tables other = lookupM db.tables other)) := by
  constructor
  · intro h
    exact ⟨_, create_table_exists h⟩
  · intro h
    rw [create_table_fresh h]
    exact ⟨rfl, lookupM_insertM_self _ _ _,
      fun other hne => lookupM_insertM_ne _ _ _ _ hne⟩

/-- Witness for C9: re-creating an existing table name fails and keeps
the database as it was. -/
theorem C9_witness :
    ∃ msg, Database.create_table ⟨[("t", ⟨"t", [], []⟩)]⟩ "t" =
      (Res.err msg, ⟨[("t", ⟨"t", [], []⟩)]⟩) :=
  (C9_create_table ⟨[("t", ⟨"t", [], []⟩)]⟩ "t").1 (by decide)

/-- Modelled from the spec: the serialized byte stream produced by the
external serialization collaborator (`bincode`/`serde`, not part of this
repository) is abstracted as a token stream — length-prefixed
collections of primitive values, mirroring how the derived serializer
walks `Database`/`Table`/`Record`. -/
inductive STok where
  | n (v : Nat)
  | s (v : String)
deriving DecidableEq, Repr

/-- Serialized form of the data map of a record: the pairs in iteration
order. -/
def encData : List (String × String) → List STok
  | [] => []
  | (k, v) :: rest => STok.s k :: STok.s v :: encData rest

/-- Serialized form of a record sequence: each record is its id, the
data length and the data pairs. -/
def encRecords : List Record → List STok
  | [] => []
  | r :: rest =>
    STok.n r.id :: STok.n r.data.length :: (encData r.data ++ encRecords rest)

/-- Serialized form of the id → position index. -/
def encIndex : List (Nat × Nat) → List STok
  | [] => []
  | (k, v) :: rest => STok.n k :: STok.n v :: encIndex rest

/-- Serialized form of a table: name, record count, records, index size,
index entries. -/
def encTable (t : Table) : List STok :=
  STok.s t.name :: STok.n t.records.length ::
    (encRecords t.records ++ STok.n t.index.length :: encIndex t.index)

/-- Serialized form of the table map. -/
def encTables : List (String × Table) → List STok
  | [] => []
  | (nm, t) :: rest => STok.s nm :: (encTable t ++ encTables rest)

/-- Modelled from the spec: `save` — serialize the whole database as one
opaque unit. -/
def save (db : Database) : List STok :=
  STok.n db.tables.length :: encTables db.tables

def decData : Nat → List STok → Option (List (String × String) × List STok)
  | 0, toks => some ([], toks)
  | Nat.succ n, STok.s k :: STok.s v :: rest =>
    match decData n rest with
    | some (ps, rem) => some ((k, v) :: ps, rem)
    | none => none
  | Nat.succ _, _ => none

def decRecords : Nat → List STok → Option (List Record × List STok)
  | 0, toks => some ([], toks)
  | Nat.succ n, STok.n id :: STok.n dn :: rest =>
    match decData dn rest with
    | some (d, rem) =>
      match decRecords n rem with
      | some (rs, rem2) => some (⟨id, d⟩ :: rs, rem2)
      | none => none
    | none => none
  | Nat.succ _, _ => none

def decIndex : Nat → List STok → Option (List (Nat × Nat) × List STok)
  | 0, toks => some ([], toks)
  | Nat.succ n, STok.n k :: STok.n v :: rest =>
    match decIndex n rest with
    | some (ps, rem) => some ((k, v) :: ps, rem)
    | none => none
  | Nat.succ _, _ => none

def decTable : List STok → Option (Table × List STok)
  | STok.s nm :: STok.n rn :: rest =>
    match decRecords rn rest with
    | some (rs, STok.n inn :: rem2) =>
      match decIndex inn rem2 with
      | some (ix, rem3) => some (⟨nm, rs, ix⟩, rem3)
      | none => none
    | _ => none
  | _ => none

def decTables : Nat → List STok → Option (List (String × Table) × List STok)
  | 0, toks => some ([], toks)
  | Nat.succ n, STok.s nm :: rest =>
    match decTable rest with
    | some (t, rem) =>
      match decTables n rem with
      | some (ts, rem2) => some ((nm, t) :: ts, rem2)
      | none => none
    | none => none
  | Nat.succ _, _ => none

/-- Modelled from the spec: `load` — deserialize a whole database from a
snapshot, failing on a malformed stream. -/
def load (toks : List STok) : Option Database :=
  match toks with
  | STok.n n :: rest =>
    match decTables n rest with
    | some (ts, _) => some ⟨ts⟩
    | none => none
  | _ => none

theorem decData_enc (ps : List (String × String)) (rest : List STok) :
    decData ps.length (encData ps ++ rest) = some (ps, rest) := by
  induction ps with
  | nil => rfl
  | cons kv tail ih =>
    obtain ⟨k, v⟩ := kv
    simp only [encData, List.length_cons, List.cons_append, decData, List.append_eq, ih]

theorem decRecords_enc (rs : List Record) (rest : List STok) :
    decRecords rs.length (encRecords rs ++ rest) = some (rs, rest) := by
  induction rs with
  | nil => rfl
  | cons r tail ih =>
    simp only [encRecords, List.length_cons, List.cons_append, List.append_assoc,
      decRecords, List.append_eq, decData_enc, ih]

theorem decIndex_enc (ix : List (Nat × Nat)) (rest : List STok) :
    decIndex ix.length (encIndex ix ++ rest) = some (ix, rest) := by
  induction ix with
  | nil => rfl
  | cons kv tail ih =>
    obtain ⟨k, v⟩ := kv
    simp only [encIndex, List.length_cons, List.cons_append, decIndex, List.append_eq, ih]

theorem decTable_enc (t : Table) (rest : List STok) :
    decTable (encTable t ++ rest) = some (t, rest) := by
  obtain ⟨nm, rs, ix⟩ := t
  simp only [encTable, List.cons_append, List.append_assoc, List.cons_append, decTable,
    List.append_eq, decRecords_enc, decIndex_enc]

theorem decTables_enc (ts : List (String × Table)) (rest : List STok) :
    decTables ts.length (encTables ts ++ rest) = some (ts, rest) := by
  induction ts with
  | nil => rfl
  | cons nt tail ih =>
    obtain ⟨nm, t⟩ := nt
    simp only [encTables, List.length_cons, List.cons_append, List.append_assoc,
      decTables, List.append_eq, decTable_enc, ih]

/-- Claim C10: restoring a saved database reproduces it exactly — in
particular the set of table names and, per table, the records with their
ids and data are all preserved. -/
theorem C10_save_load_roundtrip (db : Database) : load (save db) = some db := by
  obtain ⟨ts⟩ := db
  have h := decTables_enc ts []
  rw [List.append_nil] at h
  simp only [save, load, h]
